import Mathlib

set_option maxHeartbeats 1000000

namespace CodeArchViz

/-! Shallow embedding of the static dependency-graph engine of the
Code-Architecture-Visualizer repository: the structural extractor
(src/analyzers/code_parser.py) and the dependency analyzer / exporter
(src/analyzers/dependency_analyzer.py). -/

/-- Python AST statements, as far as the extractor inspects them.
The extractor walks the whole tree with ast.walk and matches node classes
with isinstance. In Python's ast, FunctionDef and AsyncFunctionDef are
distinct node classes (neither is a subclass of the other), so both appear
here as separate constructors. Compound statements that carry nested
statements but are none of the matched classes (if/for/while/try/with, and
the bodies of defs and classes) are collapsed into their statement children,
which is all ast.walk exposes to the matching code. An importStmt carries
one (name, asname) pair per alias, an importFrom additionally its module,
which the Python grammar allows to be absent (relative import
"from . import x" has module = None). -/
inductive Stmt : Type where
  | functionDef (nm : String) (lineno : Nat) (endLineno : Option Nat) (body : List Stmt)
  | asyncFunctionDef (nm : String) (lineno : Nat) (endLineno : Option Nat) (body : List Stmt)
  | classDef (nm : String) (lineno : Nat) (endLineno : Option Nat) (body : List Stmt)
  | importStmt (names : List (String × Option String)) (lineno : Nat)
  | importFrom (modname : Option String) (names : List (String × Option String)) (lineno : Nat)
  | other (body : List Stmt)

/-- Statement children, as ast.walk's ast.iter_child_nodes exposes them. -/
def Stmt.children : Stmt → List Stmt
  | .functionDef _ _ _ b => b
  | .asyncFunctionDef _ _ _ b => b
  | .classDef _ _ _ b => b
  | .importStmt _ _ => []
  | .importFrom _ _ _ => []
  | .other b => b

/-- Total number of statement nodes in a forest of statements. -/
def stmtsSize : List Stmt → Nat
  | [] => 0
  | .functionDef _ _ _ b :: rest => 1 + stmtsSize b + stmtsSize rest
  | .asyncFunctionDef _ _ _ b :: rest => 1 + stmtsSize b + stmtsSize rest
  | .classDef _ _ _ b :: rest => 1 + stmtsSize b + stmtsSize rest
  | .importStmt _ _ :: rest => 1 + stmtsSize rest
  | .importFrom _ _ _ :: rest => 1 + stmtsSize rest
  | .other b :: rest => 1 + stmtsSize b + stmtsSize rest

/-- Breadth-first traversal with explicit fuel. ast.walk pops a node from
the front of a deque, yields it and pushes its children at the back; one
unit of fuel is spent per yielded node, so fuel stmtsSize q is exactly
enough to drain the queue q. -/
def walkFuel : Nat → List Stmt → List Stmt
  | 0, _ => []
  | _ + 1, [] => []
  | fuel + 1, s :: q => s :: walkFuel fuel (q ++ s.children)

/-- Models ast.walk over a module body: breadth-first enumeration of every
statement node of the tree. (ast.walk starts from the Module node itself,
which matches none of the isinstance checks, so it is omitted here.) -/
def walkAll (body : List Stmt) : List Stmt :=
  walkFuel (stmtsSize body) body

/-- One entry of the functions / classes lists of a parse record:
{"name": ..., "lineno": ..., "end_lineno": ...}. -/
structure DefEntry where
  nm : String
  lineno : Nat
  end_lineno : Option Nat
deriving DecidableEq, Repr

/-- One entry of the standard_imports list:
{"module": alias.name, "alias": alias.asname, "line": n.lineno}. -/
structure ImportEntry where
  module : String
  asname : Option String
  line : Nat
deriving DecidableEq, Repr

/-- One entry of the from_imports list:
{"module": n.module, "name": alias.name, "alias": alias.asname,
"line": n.lineno}; n.module is None for relative imports. -/
structure FromImportEntry where
  module : Option String
  nm : String
  asname : Option String
  line : Nat
deriving DecidableEq, Repr

/-- The imports dictionary of a parse record. -/
structure ImportsData where
  standard_imports : List ImportEntry
  from_imports : List FromImportEntry
deriving DecidableEq, Repr

/-- A successful parse record of one file. The source also retains the full
source text under "source_code"; no part of the graph engine reads it, and
it is not modelled. -/
structure ParseData where
  functions : List DefEntry
  classes : List DefEntry
  imports : ImportsData
  source_lines : Nat
deriving DecidableEq, Repr

/-- A Python source file that ast.parse accepts: its statement tree and its
number of source lines (len(code.splitlines())). -/
structure PyFile where
  body : List Stmt
  sourceLines : Nat

/-- Models CodeParser._parse_python_file on a file that reads and parses
successfully: one ast.walk pass appending to the functions, classes and
the two import lists according to the isinstance checks. Collecting each category
by a filterMap over the same walk enumeration yields the same lists in the
same order as the single appending pass of the source, because the
categories are disjoint. -/
def parse_python_file (f : PyFile) : ParseData :=
  let ns := walkAll f.body
  { functions := ns.filterMap fun s =>
      match s with
      | .functionDef n l e _ => some ⟨n, l, e⟩
      | _ => none
    classes := ns.filterMap fun s =>
      match s with
      | .classDef n l e _ => some ⟨n, l, e⟩
      | _ => none
    imports :=
      { standard_imports := ns.flatMap fun s =>
          match s with
          | .importStmt names l => names.map fun p => ⟨p.1, p.2, l⟩
          | _ => []
        from_imports := ns.flatMap fun s =>
          match s with
          | .importFrom m names l => names.map fun p => ⟨m, p.1, p.2, l⟩
          | _ => [] }
    source_lines := f.sourceLines }

/-- Outcome of parsing one file, i.e. the dictionary
_parse_python_file returns: parsing_successful=True with the record, or
parsing_successful=False with the error string. -/
inductive FileParse : Type where
  | ok (data : ParseData)
  | failed (error : String)
deriving DecidableEq

/-- Content of one file on disk, as far as _parse_python_file is concerned:
it either reads and parses into a statement tree, or raises (read error,
decode error, syntax error), which the function catches itself. -/
inductive PyContent : Type where
  | parsed (f : PyFile)
  | unparsable (error : String)

/-- One regular file met during the directory walk: its joined path, the
lower-cased extension os.path.splitext(file)[1].lower(), and its content. -/
structure SrcFile where
  path : String
  ext : String
  content : PyContent

/-- A root directory handed to os.walk: either enumerable, yielding its
regular files in traversal order, or not enumerable at all (path missing,
permission denied). -/
inductive RootDir : Type where
  | accessible (files : List SrcFile)
  | inaccessible

/-- Models os.walk with its default onerror=None: errors raised by scandir
while walking are ignored, so an inaccessible root yields no entries and
raises nothing. -/
def osWalk : RootDir → List SrcFile
  | .accessible fs => fs
  | .inaccessible => []

def supported_ext : List String := [".py"]

/-- The results dictionary CodeParser.parse_project builds. -/
structure ParseResults where
  parsed_files : List (String × FileParse)
  unsupported_files : List String
deriving DecidableEq

def parse_ok_msg : String := "✅ All supported files parsed"

def file_outcome : PyContent → FileParse
  | .parsed f => .ok (parse_python_file f)
  | .unparsable e => .failed e

/-- Models CodeParser.parse_project. The source wraps the walk in
try/except returning ({}, "❌ Parse error"), but that branch is
unreachable: os.walk with onerror=None never raises for an unwalkable
root, and _parse_python_file catches every per-file exception itself, so
the function always returns the accumulated results with the success
message. -/
def parse_project (root : RootDir) : ParseResults × String :=
  ((osWalk root).foldl
    (fun acc f =>
      if f.ext ∈ supported_ext then
        { acc with parsed_files := acc.parsed_files ++ [(f.path, file_outcome f.content)] }
      else
        { acc with unsupported_files := acc.unsupported_files ++ [f.path] })
    ⟨[], []⟩,
   parse_ok_msg)

/-! Module identity: module_name = Path(file_path).stem. -/

/-- Splits a character list at every occurrence of the separator. -/
def splitChars (sep : Char) : List Char → List (List Char)
  | [] => [[]]
  | c :: rest =>
    let r := splitChars sep rest
    if c = sep then [] :: r
    else
      match r with
      | [] => [[c]]
      | g :: gs => (c :: g) :: gs

/-- Index of the last '.' in a name, if any. -/
def lastDotIdx (cs : List Char) : Option Nat :=
  ((List.range cs.length).filter fun i => cs.getD i ' ' = '.').getLast?

/-- Models Path(file_path).stem on POSIX paths: the final path component
(trailing separators ignored), with its extension removed when the final
'.' sits strictly inside the name (pathlib keeps ".bashrc" and a trailing
'.' intact). -/
def stemOf (path : String) : String :=
  let nameChars := ((splitChars '/' path.toList).filter fun c => c ≠ []).getLastD []
  match lastDotIdx nameChars with
  | some i => if 0 < i ∧ i < nameChars.length - 1 then ⟨nameChars.take i⟩ else ⟨nameChars⟩
  | none => ⟨nameChars⟩

/-! Association lists standing for Python dicts: lookup finds the first
binding, an update rewrites it in place, a new key is appended at the end,
exactly the insertion-order semantics of dict and of networkx's adjacency
dicts. -/

def lookupK {α β : Type} [DecidableEq α] : List (α × β) → α → Option β
  | [], _ => none
  | (k, v) :: rest, key => if k = key then some v else lookupK rest key

/-- Upsert with access to the previous binding, modelling
dict-of-attributes update. -/
def upsertF {α β : Type} [DecidableEq α] : List (α × β) → α → (Option β → β) → List (α × β)
  | [], key, f => [(key, f none)]
  | (k, w) :: rest, key, f =>
    if k = key then (k, f (some w)) :: rest else (k, w) :: upsertF rest key f

/-- Plain dict assignment d[key] = v. -/
def upsertK {α β : Type} [DecidableEq α] (l : List (α × β)) (key : α) (v : β) : List (α × β) :=
  upsertF l key fun _ => v

/-! The dependency graph: a networkx DiGraph. A DiGraph holds at most one
edge per ordered node pair; add_node and add_edge on an existing node/edge
update the stored attribute dict rather than creating a second entry. -/

/-- Node attributes set by add_node in analyze_import_relationships. -/
structure NodeData where
  file_path : String
  functions : Nat
  classes : Nat
  source_lines : Nat
deriving DecidableEq, Repr

/-- Edge attribute dict. import_type and line_number are set by every
add_edge call of the analyzer; imported_name is set only by from-import
calls, so the key can be absent (none); the alias key is set by every call
but its value can be Python None. -/
structure EdgeData where
  import_type : String
  line_number : Nat
  imported_name : Option String
  asname : Option String
deriving DecidableEq, Repr

structure Graph where
  nodes : List (String × NodeData)
  edges : List ((String × String) × EdgeData)
deriving DecidableEq, Repr

/-- nx.DiGraph.add_node with all three attributes given: inserts the node,
or replaces the attributes of an existing one. -/
def addNode (g : Graph) (id : String) (d : NodeData) : Graph :=
  { g with nodes := upsertK g.nodes id d }

/-- nx.DiGraph.add_edge: inserts the edge, or updates the attribute dict
of an existing one; the update function receives the previous attributes.
(add_edge would also create missing endpoint nodes; the analyzer only ever
adds edges between nodes created beforehand, so that case never fires and
is not modelled.) -/
def addEdge (g : Graph) (u v : String) (f : Option EdgeData → EdgeData) : Graph :=
  { g with edges := upsertF g.edges (u, v) f }

def nodeIds (g : Graph) : List String := g.nodes.map Prod.fst

/-- Number of edges into n (nx.DiGraph.in_degree). -/
def inDegree (g : Graph) (n : String) : Nat :=
  (g.edges.filter fun e => e.1.2 = n).length

/-- Number of edges out of n (nx.DiGraph.out_degree). -/
def outDegree (g : Graph) (n : String) : Nat :=
  (g.edges.filter fun e => e.1.1 = n).length

/-- DependencyAnalyzer._identify_orphaned_modules: the nodes with zero
in-degree and zero out-degree. -/
def identify_orphaned_modules (g : Graph) : List String :=
  (nodeIds g).filter fun n => inDegree g n = 0 ∧ outDegree g n = 0

def hasEdge (g : Graph) (u v : String) : Bool :=
  (lookupK g.edges (u, v)).isSome

/-! Cycle enumeration. -/

/-- Lexicographic strict order on the characters of two strings. -/
def chLt : List Char → List Char → Bool
  | [], [] => false
  | [], _ :: _ => true
  | _ :: _, [] => false
  | a :: as, b :: bs => if a < b then true else if b < a then false else chLt as bs

def strLtB (a b : String) : Bool := chLt a.toList b.toList

/-- All ways to insert an element into a list. -/
def insertEverywhere {α : Type} (x : α) : List α → List (List α)
  | [] => [[x]]
  | y :: ys => (x :: y :: ys) :: (insertEverywhere x ys).map (y :: ·)

/-- All permutations of a list. -/
def perms {α : Type} : List α → List (List α)
  | [] => [[]]
  | x :: xs => (perms xs).flatMap (insertEverywhere x)

/-- All subsequences of a list. -/
def subseqs {α : Type} : List α → List (List α)
  | [] => [[]]
  | x :: xs => (subseqs xs).flatMap fun s => [s, x :: s]

/-- Candidate node sequences: every ordering of every subset of the nodes. -/
def cycleCandidates (ids : List String) : List (List String) :=
  (subseqs ids).flatMap perms

/-- Checks that consecutive candidate entries are joined by edges and that
the last one closes back to the first. -/
def chainOK (g : Graph) (first : String) : List String → Bool
  | [] => true
  | [x] => hasEdge g x first
  | x :: y :: rest => hasEdge g x y && chainOK g first (y :: rest)

/-- An elementary cycle, written with its least node first so that each
rotation class is counted once. -/
def isCycleList (g : Graph) : List String → Bool
  | [] => false
  | h :: t => chainOK g h (h :: t) && decide (h :: t).Nodup && t.all fun x => strLtB h x

/-- Modelled from the documented behavior of networkx.simple_cycles
(library code, not part of this repository): it enumerates every
elementary cycle of the directed graph exactly once, each as a node list
without repetition, self-loops as length-1 cycles; the rotation it picks
and the order between cycles are implementation details, fixed here by
starting each cycle at its least node. -/
def simple_cycles (g : Graph) : List (List String) :=
  (cycleCandidates (nodeIds g)).filter (isCycleList g)

/-! DependencyAnalyzer.analyze_import_relationships. -/

/-- The metrics sub-dictionary of module_info. -/
structure Metrics where
  function_count : Nat
  class_count : Nat
  source_lines : Nat
deriving DecidableEq, Repr

/-- One module_info entry. -/
structure ModuleInfo where
  file_path : String
  functions : List DefEntry
  classes : List DefEntry
  imports : ImportsData
  metrics : Metrics
deriving DecidableEq, Repr

/-- State of the first loop of analyze_import_relationships. -/
structure Pass1 where
  module_mapping : List (String × String)
  file_to_module : List (String × String)
  graph : Graph
  module_info : List (String × ModuleInfo)
deriving DecidableEq

/-- One iteration of the first loop: files that failed to parse are
skipped; for a successful file the stem is bound (overwriting any earlier
binding of the same stem), the node is added with its metrics, and
module_info is filled. -/
def pass1Step (st : Pass1) (entry : String × FileParse) : Pass1 :=
  match entry.2 with
  | .failed _ => st
  | .ok d =>
    let m := stemOf entry.1
    { module_mapping := upsertK st.module_mapping m entry.1
      file_to_module := upsertK st.file_to_module entry.1 m
      graph := addNode st.graph m
        ⟨entry.1, d.functions.length, d.classes.length, d.source_lines⟩
      module_info := upsertK st.module_info m
        ⟨entry.1, d.functions, d.classes, d.imports,
         ⟨d.functions.length, d.classes.length, d.source_lines⟩⟩ }

def pass1 (pr : List (String × FileParse)) : Pass1 :=
  pr.foldl pass1Step ⟨[], [], ⟨[], []⟩, []⟩

/-- One import occurrence of the second loop, with the source module of
its file already resolved through file_to_module. -/
inductive ImportOcc : Type where
  | std (src : String) (tgt : String) (line : Nat) (asname : Option String)
  | frm (src : String) (tgt : Option String) (line : Nat) (nm : String) (asname : Option String)

/-- The raw target string the except-branch adds to
external_dependencies: the module of a plain import, or the module field
of a from-import, which is None for a relative import. -/
def targetOf : ImportOcc → Option String
  | .std _ t _ _ => some t
  | .frm _ t _ _ _ => t

/-- The import occurrences of one parsed_files item, in the order the
second loop visits them: all standard imports of the file first, then all
from-imports; failed files contribute nothing. The source module is
file_to_module[file_path], always present for a successful file. -/
def occurrencesOfFile (ftm : List (String × String)) (entry : String × FileParse) :
    List ImportOcc :=
  match entry.2 with
  | .failed _ => []
  | .ok d =>
    let src := (lookupK ftm entry.1).getD ""
    (d.imports.standard_imports.map fun ii => .std src ii.module ii.line ii.asname) ++
      (d.imports.from_imports.map fun fi => .frm src fi.module fi.line fi.nm fi.asname)

/-- All import occurrences of the run, files in dict order; flattening the
source's two nested loops into one list does not change the processing
order. -/
def occurrences (ftm : List (String × String)) (pr : List (String × FileParse)) :
    List ImportOcc :=
  pr.flatMap (occurrencesOfFile ftm)

/-- What one resolved add_edge call writes into the edge attribute dict. -/
inductive EdgeWrite : Type where
  | std (line : Nat) (asname : Option String)
  | frm (line : Nat) (nm : String) (asname : Option String)
deriving DecidableEq

/-- Attribute-dict update of add_edge: a plain import sets import_type,
line_number and alias and leaves any earlier imported_name in place; a
from-import sets all four keys. -/
def applyWrite : EdgeWrite → Option EdgeData → EdgeData
  | .std l a, none => ⟨"standard", l, none, a⟩
  | .std l a, some e => ⟨"standard", l, e.imported_name, a⟩
  | .frm l n a, _ => ⟨"from_import", l, some n, a⟩

structure ResolvedImport where
  src : String
  tgt : String
  wr : EdgeWrite
deriving DecidableEq

/-- The membership test target_module in module_mapping: a plain import
target or a from-import module resolves iff it is a known stem; a
from-import with module None never resolves (None is not a dict key). -/
def resolved (keys : List String) : ImportOcc → Option ResolvedImport
  | .std s t l a => if t ∈ keys then some ⟨s, t, .std l a⟩ else none
  | .frm s t l n a =>
    match t with
    | some t' => if t' ∈ keys then some ⟨s, t', .frm l n a⟩ else none
    | none => none

/-- Python set.add on the external-dependency set, modelled as an
insertion-ordered duplicate-free list. (The source later materializes the
set with list(...); its iteration order is a hash-table detail on which
nothing here depends beyond membership.) -/
def addExt (ext : List (Option String)) (x : Option String) : List (Option String) :=
  if x ∈ ext then ext else ext ++ [x]

/-- State of the second loop: the growing graph, the external set and the
dependency_count counter. -/
structure Pass2 where
  graph : Graph
  ext : List (Option String)
  count : Nat
deriving DecidableEq

/-- One import occurrence processed: the if-branch adds (or updates) the
edge and bumps dependency_count, the else-branch adds the raw target to
the external set. -/
def pass2Step (keys : List String) (st : Pass2) (occ : ImportOcc) : Pass2 :=
  match resolved keys occ with
  | some r => ⟨addEdge st.graph r.src r.tgt (applyWrite r.wr), st.ext, st.count + 1⟩
  | none => ⟨st.graph, addExt st.ext (targetOf occ), st.count⟩

/-- The summary dictionary of the returned analysis result. -/
structure Summary where
  total_modules : Nat
  total_dependencies : Nat
  external_count : Nat
  circular_count : Nat
  orphaned_count : Nat
deriving DecidableEq, Repr

/-- The dictionary analyze_import_relationships returns on success.
analysis_time is wall-clock time and is not modelled; the accompanying
status message is a constant. The except-branch (None, error) is
unreachable here: every dict access in the loops is to a key inserted by
the first loop, and the networkx calls do not raise on these graphs. -/
structure AnalysisResult where
  graph : Graph
  module_info : List (String × ModuleInfo)
  external_dependencies : List (Option String)
  circular_dependencies : List (List String)
  orphaned_modules : List String
  summary : Summary
deriving DecidableEq

/-- Models DependencyAnalyzer.analyze_import_relationships on a fresh
analyzer instance: first loop registers modules and nodes, second loop
resolves every import of every successfully parsed file, then cycles and
orphans are computed on the finished graph. -/
def analyze_import_relationships (pr : List (String × FileParse)) : AnalysisResult :=
  let p1 := pass1 pr
  let keys := p1.module_mapping.map Prod.fst
  let p2 := (occurrences p1.file_to_module pr).foldl (pass2Step keys)
    ⟨p1.graph, [], 0⟩
  let cycles := simple_cycles p2.graph
  let orphans := identify_orphaned_modules p2.graph
  { graph := p2.graph
    module_info := p1.module_info
    external_dependencies := p2.ext
    circular_dependencies := cycles
    orphaned_modules := orphans
    summary := ⟨p2.graph.nodes.length, p2.count, p2.ext.length, cycles.length,
      orphans.length⟩ }

/-! DependencyAnalyzer.export_to_formats: the mandatory JSON artifact. -/

/-- One element of the exported nodes array. -/
structure ExportNode where
  id : String
  file_path : String
  functions : Nat
  classes : Nat
  source_lines : Nat
deriving DecidableEq, Repr

/-- One element of the exported edges array. data.get('imported_name', '')
turns an absent key into the empty string; the alias key is always
present but its value may be Python None, which JSON renders as null. -/
structure ExportEdge where
  source : String
  target : String
  import_type : String
  line_number : Nat
  imported_name : String
  asname : Option String
deriving DecidableEq, Repr

/-- The json_data dictionary written to dependencies_<id>.json. -/
structure JsonExport where
  nodes : List ExportNode
  edges : List ExportEdge
  external_dependencies : List (Option String)
  circular_dependencies : List (List String)
  orphaned_modules : List String
deriving DecidableEq

/-- Models the json_data construction of export_to_formats from the
analyzer state left by analyze_import_relationships. -/
def export_json (g : Graph) (ext : List (Option String)) (cycles : List (List String))
    (orphans : List String) : JsonExport :=
  { nodes := g.nodes.map fun p => ⟨p.1, p.2.file_path, p.2.functions, p.2.classes,
      p.2.source_lines⟩
    edges := g.edges.map fun e => ⟨e.1.1, e.1.2, e.2.import_type, e.2.line_number,
      e.2.imported_name.getD "", e.2.asname⟩
    external_dependencies := ext
    circular_dependencies := cycles
    orphaned_modules := orphans }

/-- The mandatory structured export of a whole run: export_to_formats
called on the analyzer state that analyze_import_relationships left
behind. -/
def exportOf (pr : List (String × FileParse)) : JsonExport :=
  let r := analyze_import_relationships pr
  export_json r.graph r.external_dependencies r.circular_dependencies r.orphaned_modules

/-! Definitions following the spec's words, used to state claims. -/

/-- Follows the spec's words "every function definition": in Python's
grammar both def and async def introduce a function definition. -/
def specIsFunctionDef : Stmt → Bool
  | .functionDef _ _ _ _ => true
  | .asyncFunctionDef _ _ _ _ => true
  | _ => false

/-- A statement occurs in a forest when it is one of the roots or occurs
nested anywhere below one of them. -/
inductive Occurs : Stmt → List Stmt → Prop where
  | here {s : Stmt} {body : List Stmt} : s ∈ body → Occurs s body
  | nested {s t : Stmt} {body : List Stmt} : t ∈ body → Occurs s t.children → Occurs s body

/-- The path of the last successfully parsed file whose stem is s,
together with its parse record. -/
def lastWithStem (s : String) : List (String × FileParse) → Option (String × ParseData)
  | [] => none
  | (fp, c) :: rest =>
    match lastWithStem s rest with
    | some r => some r
    | none =>
      match c with
      | .ok d => if stemOf fp = s then some (fp, d) else none
      | .failed _ => none

/-- Every import target named anywhere in the successfully parsed files:
plain-import module names and raw from-import module fields. -/
def allImportTargets (pr : List (String × FileParse)) : List (Option String) :=
  pr.flatMap fun entry =>
    match entry.2 with
    | .failed _ => []
    | .ok d =>
      (d.imports.standard_imports.map fun ii => some ii.module) ++
        (d.imports.from_imports.map fun fi => fi.module)

/-- The resolved import occurrences of a run, in processing order. -/
def resolvedImports (pr : List (String × FileParse)) : List ResolvedImport :=
  let p1 := pass1 pr
  (occurrences p1.file_to_module pr).filterMap (resolved (p1.module_mapping.map Prod.fst))

/-- The attribute dict a sequence of add_edge writes leaves behind. -/
def mergeWrites (ws : List EdgeWrite) (start : Option EdgeData) : Option EdgeData :=
  ws.foldl (fun acc w => some (applyWrite w acc)) start

/-- Source module of an import occurrence. -/
def srcOf : ImportOcc → String
  | .std s _ _ _ => s
  | .frm s _ _ _ _ => s

/-- The add_edge writes a run makes on the ordered pair (u, v), in
processing order. -/
def writesForPair (pr : List (String × FileParse)) (u v : String) : List EdgeWrite :=
  ((resolvedImports pr).filter fun r => decide (r.src = u ∧ r.tgt = v)).map
    ResolvedImport.wr

/-- The node attributes a successfully parsed file contributes. -/
def nodeDataOf (e : String × ParseData) : NodeData :=
  ⟨e.1, e.2.functions.length, e.2.classes.length, e.2.source_lines⟩

/-- The add_edge writes a list of occurrences makes on (u, v), in order. -/
def writesFor (keys : List String) (occs : List ImportOcc) (u v : String) :
    List EdgeWrite :=
  ((occs.filterMap (resolved keys)).filter fun r => decide (r.src = u ∧ r.tgt = v)).map
    ResolvedImport.wr

/-! Concrete runs used as witnesses and counterexamples. -/

/-- Parse record of a module importing B twice (lines 1 and 2). -/
def c1dA : ParseData := ⟨[], [], ⟨[⟨"B", none, 1⟩, ⟨"B", none, 2⟩], []⟩, 2⟩

def c1dB : ParseData := ⟨[], [], ⟨[], []⟩, 1⟩

def c1pr : List (String × FileParse) := [("A.py", .ok c1dA), ("B.py", .ok c1dB)]

/-- a/utils.py: one function, 5 lines. -/
def c2dA : ParseData := ⟨[⟨"f", 1, none⟩], [], ⟨[], []⟩, 5⟩

/-- b/utils.py: two functions, 7 lines. -/
def c2dB : ParseData := ⟨[⟨"g", 1, none⟩, ⟨"h", 2, none⟩], [], ⟨[], []⟩, 7⟩

def c2pr : List (String × FileParse) := [("a/utils.py", .ok c2dA), ("b/utils.py", .ok c2dB)]

def c2prLate : List (String × FileParse) := [("b/utils.py", .ok c2dB)]

def c4dA : ParseData := ⟨[], [], ⟨[⟨"B", none, 1⟩], []⟩, 1⟩

def c4dB : ParseData := ⟨[], [], ⟨[], []⟩, 1⟩

def c4pr : List (String × FileParse) := [("A.py", .ok c4dA), ("B.py", .ok c4dB)]

def c4edge : ExportEdge := ⟨"A", "B", "standard", 1, "", none⟩

def c5pr : List (String × FileParse) := [("Solo.py", .ok ⟨[], [], ⟨[], []⟩, 1⟩)]

def c6d : ParseData := ⟨[], [], ⟨[⟨"os", none, 1⟩], []⟩, 1⟩

def c6pr : List (String × FileParse) := [("A.py", .ok c6d)]

/-- A.py containing "import A" on line 1. -/
def c7d : ParseData := ⟨[], [], ⟨[⟨"A", none, 1⟩], []⟩, 1⟩

def c7pr : List (String × FileParse) := [("A.py", .ok c7d)]

/-- m.py containing the relative import "from . import x" on line 1:
ast gives ImportFrom(module=None, ...). -/
def c8d : ParseData := ⟨[], [], ⟨[], [⟨none, "x", none, 1⟩]⟩, 1⟩

def c8pr : List (String × FileParse) := [("m.py", .ok c8d)]

/-- An async function definition, "async def fetch(): ..." on line 1. -/
def c9async : Stmt := .asyncFunctionDef "fetch" 1 (some 2) []

def c9file : PyFile := ⟨[c9async], 2⟩

/-- A class with a method nested inside it. -/
def c9wfile : PyFile := ⟨[.classDef "C" 1 (some 3) [.functionDef "g" 2 (some 3) []]], 3⟩

/-- p/A.py: "from B import x" on line 1. -/
def c10dF : ParseData := ⟨[], [], ⟨[], [⟨some "B", "x", none, 1⟩]⟩, 1⟩

/-- q/A.py: "import B" on line 7; same stem A, so same edge source. -/
def c10dS : ParseData := ⟨[], [], ⟨[⟨"B", none, 7⟩], []⟩, 7⟩

def c10dB : ParseData := ⟨[], [], ⟨[], []⟩, 1⟩

def c10pr : List (String × FileParse) :=
  [("p/A.py", .ok c10dF), ("q/A.py", .ok c10dS), ("B.py", .ok c10dB)]

/-! Lemmas about the dict model. -/

theorem lookupK_upsertF_self {α β : Type} [DecidableEq α] (l : List (α × β)) (k : α)
    (f : Option β → β) : lookupK (upsertF l k f) k = some (f (lookupK l k)) := by
  induction l with
  | nil => simp [upsertF, lookupK]
  | cons p rest ih =>
    by_cases h : p.1 = k
    · simp [upsertF, lookupK, h]
    · simp [upsertF, lookupK, h, ih]

theorem lookupK_upsertF_ne {α β : Type} [DecidableEq α] (l : List (α × β)) (k k' : α)
    (f : Option β → β) (h : k' ≠ k) : lookupK (upsertF l k f) k' = lookupK l k' := by
  have hkk : ¬k = k' := fun he => h he.symm
  induction l with
  | nil => simp [upsertF, lookupK, hkk]
  | cons p rest ih =>
    by_cases hp : p.1 = k
    · subst hp
      simp [upsertF, lookupK, hkk]
    · by_cases hp' : p.1 = k'
      · simp [upsertF, lookupK, hp, hp', h]
      · simp [upsertF, lookupK, hp, hp', ih]

theorem keys_upsertF {α β : Type} [DecidableEq α] (l : List (α × β)) (k : α)
    (f : Option β → β) :
    (upsertF l k f).map Prod.fst =
      if k ∈ l.map Prod.fst then l.map Prod.fst else l.map Prod.fst ++ [k] := by
  induction l with
  | nil => simp [upsertF]
  | cons p rest ih =>
    by_cases h : p.1 = k
    · simp [upsertF, h]
    · have h' : ¬k = p.1 := fun he => h he.symm
      by_cases hm : k ∈ rest.map Prod.fst
      · simp [upsertF, h, ih, h', hm]
      · simp [upsertF, h, ih, h', hm]

theorem mem_keys_upsertF_of_mem {α β : Type} [DecidableEq α] {l : List (α × β)} {j : α}
    (k : α) (f : Option β → β) (h : j ∈ l.map Prod.fst) :
    j ∈ (upsertF l k f).map Prod.fst := by
  rw [keys_upsertF]
  by_cases hm : k ∈ l.map Prod.fst <;> simp [hm, h]

theorem self_mem_keys_upsertF {α β : Type} [DecidableEq α] (l : List (α × β)) (k : α)
    (f : Option β → β) : k ∈ (upsertF l k f).map Prod.fst := by
  rw [keys_upsertF]
  by_cases hm : k ∈ l.map Prod.fst <;> simp [hm]

theorem nodup_keys_upsertF {α β : Type} [DecidableEq α] {l : List (α × β)} (k : α)
    (f : Option β → β) (h : (l.map Prod.fst).Nodup) :
    ((upsertF l k f).map Prod.fst).Nodup := by
  rw [keys_upsertF]
  by_cases hm : k ∈ l.map Prod.fst
  · simpa [hm]
  · simpa [hm, List.nodup_append] using h

theorem mem_upsertF {α β : Type} [DecidableEq α] {l : List (α × β)} {x : α × β} (k : α)
    (f : Option β → β) (h : x ∈ upsertF l k f) : x ∈ l ∨ x.1 = k := by
  induction l with
  | nil =>
    simp [upsertF] at h
    simp [h]
  | cons p rest ih =>
    by_cases hp : p.1 = k
    · simp [upsertF, hp] at h
      rcases h with h | h
      · right; rw [h]
      · left; exact List.mem_cons_of_mem _ h
    · simp [upsertF, hp] at h
      rcases h with h | h
      · left; simp [h]
      · rcases ih h with h' | h'
        · left; exact List.mem_cons_of_mem _ h'
        · right; exact h'

theorem length_upsertF_le {α β : Type} [DecidableEq α] (l : List (α × β)) (k : α)
    (f : Option β → β) : (upsertF l k f).length ≤ l.length + 1 := by
  induction l with
  | nil => simp [upsertF]
  | cons p rest ih =>
    by_cases hp : p.1 = k
    · simp [upsertF, hp]
    · simp only [upsertF, hp, if_false, List.length_cons]
      omega

/-! Lemmas about the external-dependency set. -/

theorem mem_addExt {ext : List (Option String)} {y : Option String} (x : Option String)
    (h : y ∈ addExt ext x) : y ∈ ext ∨ y = x := by
  unfold addExt at h
  by_cases hm : x ∈ ext
  · simp [hm] at h; exact Or.inl h
  · simp [hm] at h; exact h

theorem mem_addExt_of_mem {ext : List (Option String)} {y : Option String}
    (x : Option String) (h : y ∈ ext) : y ∈ addExt ext x := by
  unfold addExt
  by_cases hm : x ∈ ext
  · simp [hm, h]
  · simp [hm, h]

theorem nodup_addExt {ext : List (Option String)} (x : Option String)
    (h : ext.Nodup) : (addExt ext x).Nodup := by
  unfold addExt
  by_cases hm : x ∈ ext
  · simpa [hm]
  · simpa [hm, List.nodup_append] using h

/-! Lemmas about the cycle enumeration. -/

theorem nil_mem_subseqs {α : Type} (l : List α) : [] ∈ subseqs l := by
  induction l with
  | nil => simp [subseqs]
  | cons x xs ih =>
    simp only [subseqs, List.mem_flatMap]
    exact ⟨[], ih, by simp⟩

theorem singleton_mem_subseqs {α : Type} {a : α} {l : List α} (h : a ∈ l) :
    [a] ∈ subseqs l := by
  induction l with
  | nil => simp at h
  | cons x xs ih =>
    rcases List.mem_cons.mp h with h' | h'
    · subst h'
      simp only [subseqs, List.mem_flatMap]
      exact ⟨[], nil_mem_subseqs xs, by simp⟩
    · simp only [subseqs, List.mem_flatMap]
      exact ⟨[a], ih h', by simp⟩

theorem perms_singleton {α : Type} (a : α) : perms [a] = [[a]] := rfl

theorem singleton_mem_cycleCandidates {a : String} {ids : List String} (h : a ∈ ids) :
    [a] ∈ cycleCandidates ids := by
  simp only [cycleCandidates, List.mem_flatMap]
  exact ⟨[a], singleton_mem_subseqs h, by rw [perms_singleton]; simp⟩

theorem selfloop_mem_simple_cycles {g : Graph} {a : String} (hn : a ∈ nodeIds g)
    (he : hasEdge g a a = true) : [a] ∈ simple_cycles g := by
  unfold simple_cycles
  refine List.mem_filter.mpr ⟨singleton_mem_cycleCandidates hn, ?_⟩
  simp [isCycleList, chainOK, he]

/-! Lemmas about orphan detection. -/

theorem mem_identify_orphaned_modules {g : Graph} {n : String} :
    n ∈ identify_orphaned_modules g ↔
      n ∈ nodeIds g ∧ inDegree g n = 0 ∧ outDegree g n = 0 := by
  simp [identify_orphaned_modules, List.mem_filter]

/-! Lemmas about the first loop. -/

theorem pass1_keys_sync_aux (pr : List (String × FileParse)) :
    ∀ st : Pass1, st.graph.nodes.map Prod.fst = st.module_mapping.map Prod.fst →
      (pr.foldl pass1Step st).graph.nodes.map Prod.fst =
        (pr.foldl pass1Step st).module_mapping.map Prod.fst := by
  induction pr with
  | nil => intro st h; simpa using h
  | cons e rest ih =>
    intro st h
    rcases e with ⟨fp, c⟩
    cases c with
    | failed err => simpa [pass1Step] using ih st h
    | ok d =>
      refine ih _ ?_
      simp only [pass1Step, addNode, upsertK]
      rw [keys_upsertF, keys_upsertF, h]

theorem pass1_keys_sync (pr : List (String × FileParse)) :
    (pass1 pr).graph.nodes.map Prod.fst = (pass1 pr).module_mapping.map Prod.fst :=
  pass1_keys_sync_aux pr ⟨[], [], ⟨[], []⟩, []⟩ rfl

theorem pass1_mapping_nodup_aux (pr : List (String × FileParse)) :
    ∀ st : Pass1, (st.module_mapping.map Prod.fst).Nodup →
      ((pr.foldl pass1Step st).module_mapping.map Prod.fst).Nodup := by
  induction pr with
  | nil => intro st h; simpa using h
  | cons e rest ih =>
    intro st h
    rcases e with ⟨fp, c⟩
    cases c with
    | failed err => simpa [pass1Step] using ih st h
    | ok d => exact ih _ (nodup_keys_upsertF _ _ h)

theorem pass1_mapping_nodup (pr : List (String × FileParse)) :
    ((pass1 pr).module_mapping.map Prod.fst).Nodup :=
  pass1_mapping_nodup_aux pr ⟨[], [], ⟨[], []⟩, []⟩ (by simp)

theorem pass1_edges_aux (pr : List (String × FileParse)) :
    ∀ st : Pass1, (pr.foldl pass1Step st).graph.edges = st.graph.edges := by
  induction pr with
  | nil => intro st; simp
  | cons e rest ih =>
    intro st
    rcases e with ⟨fp, c⟩
    cases c with
    | failed err => simpa [pass1Step] using ih st
    | ok d => simpa [pass1Step, addNode] using ih _

theorem pass1_edges_nil (pr : List (String × FileParse)) :
    (pass1 pr).graph.edges = [] :=
  pass1_edges_aux pr ⟨[], [], ⟨[], []⟩, []⟩

theorem pass1_ftm_stable (pr : List (String × FileParse)) :
    ∀ st : Pass1, ∀ fp : String,
      lookupK st.file_to_module fp = some (stemOf fp) →
      lookupK (pr.foldl pass1Step st).file_to_module fp = some (stemOf fp) := by
  induction pr with
  | nil => intro st fp h; simpa using h
  | cons e rest ih =>
    intro st fp h
    rcases e with ⟨fp', c⟩
    cases c with
    | failed err => simpa [pass1Step] using ih st fp h
    | ok d =>
      refine ih _ fp ?_
      simp only [pass1Step, upsertK]
      by_cases he : fp' = fp
      · subst he
        rw [lookupK_upsertF_self]
      · rw [lookupK_upsertF_ne _ _ _ _ (fun hx => he hx.symm)]
        exact h

theorem pass1_ftm_lookup_aux (pr : List (String × FileParse)) :
    ∀ st : Pass1, ∀ fp : String, ∀ d : ParseData, (fp, FileParse.ok d) ∈ pr →
      lookupK (pr.foldl pass1Step st).file_to_module fp = some (stemOf fp) := by
  induction pr with
  | nil => intro st fp d h; simp at h
  | cons e rest ih =>
    intro st fp d h
    rcases List.mem_cons.mp h with h' | h'
    · subst h'
      refine pass1_ftm_stable rest _ fp ?_
      simp only [pass1Step, upsertK]
      rw [lookupK_upsertF_self]
    · exact ih _ fp d h'

theorem pass1_ftm_lookup {pr : List (String × FileParse)} {fp : String} {d : ParseData}
    (h : (fp, FileParse.ok d) ∈ pr) :
    lookupK (pass1 pr).file_to_module fp = some (stemOf fp) :=
  pass1_ftm_lookup_aux pr ⟨[], [], ⟨[], []⟩, []⟩ fp d h

theorem pass1_keys_mono (pr : List (String × FileParse)) :
    ∀ st : Pass1, ∀ j : String, j ∈ st.module_mapping.map Prod.fst →
      j ∈ (pr.foldl pass1Step st).module_mapping.map Prod.fst := by
  induction pr with
  | nil => intro st j h; simpa using h
  | cons e rest ih =>
    intro st j h
    rcases e with ⟨fp, c⟩
    cases c with
    | failed err => simpa [pass1Step] using ih st j h
    | ok d => exact ih _ j (mem_keys_upsertF_of_mem _ _ h)

theorem pass1_stem_mem_keys_aux (pr : List (String × FileParse)) :
    ∀ st : Pass1, ∀ fp : String, ∀ d : ParseData, (fp, FileParse.ok d) ∈ pr →
      stemOf fp ∈ (pr.foldl pass1Step st).module_mapping.map Prod.fst := by
  induction pr with
  | nil => intro st fp d h; simp at h
  | cons e rest ih =>
    intro st fp d h
    rcases List.mem_cons.mp h with h' | h'
    · subst h'
      exact pass1_keys_mono rest _ _ (self_mem_keys_upsertF _ _ _)
    · exact ih _ fp d h'

theorem pass1_stem_mem_keys {pr : List (String × FileParse)} {fp : String}
    {d : ParseData} (h : (fp, FileParse.ok d) ∈ pr) :
    stemOf fp ∈ (pass1 pr).module_mapping.map Prod.fst :=
  pass1_stem_mem_keys_aux pr ⟨[], [], ⟨[], []⟩, []⟩ fp d h

theorem pass1_mapping_last_aux (s : String) (pr : List (String × FileParse)) :
    ∀ st : Pass1,
      lookupK (pr.foldl pass1Step st).module_mapping s =
        (match lastWithStem s pr with
         | some e => some e.1
         | none => lookupK st.module_mapping s) := by
  induction pr with
  | nil => intro st; simp [lastWithStem]
  | cons e rest ih =>
    intro st
    rcases e with ⟨fp, c⟩
    rw [List.foldl_cons, ih]
    cases hl : lastWithStem s rest with
    | some r => simp [lastWithStem, hl]
    | none =>
      cases c with
      | failed err => simp [lastWithStem, hl, pass1Step]
      | ok d =>
        simp only [lastWithStem, hl, pass1Step, upsertK]
        by_cases hs : stemOf fp = s
        · subst hs
          rw [lookupK_upsertF_self]
          simp
        · rw [lookupK_upsertF_ne _ _ _ _ (fun hx => hs hx.symm)]
          simp [hs]

theorem pass1_nodes_last_aux (s : String) (pr : List (String × FileParse)) :
    ∀ st : Pass1,
      lookupK (pr.foldl pass1Step st).graph.nodes s =
        (match lastWithStem s pr with
         | some e => some (nodeDataOf e)
         | none => lookupK st.graph.nodes s) := by
  induction pr with
  | nil => intro st; simp [lastWithStem]
  | cons e rest ih =>
    intro st
    rcases e with ⟨fp, c⟩
    rw [List.foldl_cons, ih]
    cases hl : lastWithStem s rest with
    | some r => simp [lastWithStem, hl]
    | none =>
      cases c with
      | failed err => simp [lastWithStem, hl, pass1Step]
      | ok d =>
        simp only [lastWithStem, hl, pass1Step, addNode, upsertK]
        by_cases hs : stemOf fp = s
        · subst hs
          rw [lookupK_upsertF_self]
          simp [nodeDataOf]
        · rw [lookupK_upsertF_ne _ _ _ _ (fun hx => hs hx.symm)]
          simp [hs]

/-! Lemmas about the second loop. -/

theorem resolved_spec {keys : List String} {o : ImportOcc} {r : ResolvedImport}
    (h : resolved keys o = some r) : r.src = srcOf o ∧ r.tgt ∈ keys := by
  cases o with
  | std s t l a =>
    by_cases ht : t ∈ keys
    · simp [resolved, ht] at h
      rw [← h]
      exact ⟨rfl, ht⟩
    · simp [resolved, ht] at h
  | frm s t l n a =>
    cases t with
    | none => simp [resolved] at h
    | some t' =>
      by_cases ht : t' ∈ keys
      · simp [resolved, ht] at h
        rw [← h]
        exact ⟨rfl, ht⟩
      · simp [resolved, ht] at h

theorem resolved_none_target {keys : List String} {o : ImportOcc}
    (h : resolved keys o = none) : ∀ m ∈ keys, targetOf o ≠ some m := by
  cases o with
  | std s t l a =>
    by_cases ht : t ∈ keys
    · simp [resolved, ht] at h
    · intro m hm he
      simp only [targetOf, Option.some.injEq] at he
      exact ht (he ▸ hm)
  | frm s t l n a =>
    cases t with
    | none => intro m hm he; simp [targetOf] at he
    | some t' =>
      by_cases ht : t' ∈ keys
      · simp [resolved, ht] at h
      · intro m hm he
        simp only [targetOf, Option.some.injEq] at he
        exact ht (he ▸ hm)

theorem writesFor_cons_none {keys : List String} {o : ImportOcc}
    (rest : List ImportOcc) (u v : String) (hro : resolved keys o = none) :
    writesFor keys (o :: rest) u v = writesFor keys rest u v := by
  simp [writesFor, List.filterMap_cons, hro]

theorem writesFor_cons_some_hit {keys : List String} {o : ImportOcc}
    {r : ResolvedImport} (rest : List ImportOcc) (hro : resolved keys o = some r) :
    writesFor keys (o :: rest) r.src r.tgt = r.wr :: writesFor keys rest r.src r.tgt := by
  simp [writesFor, List.filterMap_cons, hro]

theorem writesFor_cons_some_miss {keys : List String} {o : ImportOcc}
    {r : ResolvedImport} {u v : String} (rest : List ImportOcc)
    (hro : resolved keys o = some r) (h : ¬(r.src = u ∧ r.tgt = v)) :
    writesFor keys (o :: rest) u v = writesFor keys rest u v := by
  simp [writesFor, List.filterMap_cons, hro, h]

theorem pass2_nodes_aux (keys : List String) (occs : List ImportOcc) :
    ∀ st : Pass2, (occs.foldl (pass2Step keys) st).graph.nodes = st.graph.nodes := by
  induction occs with
  | nil => intro st; simp
  | cons o rest ih =>
    intro st
    rw [List.foldl_cons]
    cases hro : resolved keys o with
    | none => simpa [pass2Step, hro] using ih _
    | some r => simpa [pass2Step, hro, addEdge] using ih _

theorem pass2_count_aux (keys : List String) (occs : List ImportOcc) :
    ∀ st : Pass2, (occs.foldl (pass2Step keys) st).count =
      st.count + (occs.filterMap (resolved keys)).length := by
  induction occs with
  | nil => intro st; simp
  | cons o rest ih =>
    intro st
    rw [List.foldl_cons]
    cases hro : resolved keys o with
    | none =>
      simp only [List.filterMap_cons, hro]
      simpa [pass2Step, hro] using ih _
    | some r =>
      rw [ih (pass2Step keys st o)]
      simp only [List.filterMap_cons, hro, List.length_cons, pass2Step]
      omega

theorem pass2_lookup_aux (keys : List String) (u v : String) (occs : List ImportOcc) :
    ∀ st : Pass2, lookupK (occs.foldl (pass2Step keys) st).graph.edges (u, v) =
      mergeWrites (writesFor keys occs u v) (lookupK st.graph.edges (u, v)) := by
  induction occs with
  | nil => intro st; simp [writesFor, mergeWrites]
  | cons o rest ih =>
    intro st
    rw [List.foldl_cons]
    cases hro : resolved keys o with
    | none =>
      rw [writesFor_cons_none rest u v hro, ih (pass2Step keys st o)]
      congr 1
      simp [pass2Step, hro]
    | some r =>
      by_cases hp : r.src = u ∧ r.tgt = v
      · obtain ⟨h1, h2⟩ := hp
        subst h1; subst h2
        rw [writesFor_cons_some_hit rest hro]
        have hs : lookupK (pass2Step keys st o).graph.edges (r.src, r.tgt) =
            some (applyWrite r.wr (lookupK st.graph.edges (r.src, r.tgt))) := by
          simp only [pass2Step, hro, addEdge]
          exact lookupK_upsertF_self _ _ _
        rw [ih (pass2Step keys st o), hs]
        rfl
      · rw [writesFor_cons_some_miss rest hro hp, ih (pass2Step keys st o)]
        have hne : (u, v) ≠ (r.src, r.tgt) := by
          intro he
          have h1 : u = r.src := congrArg Prod.fst he
          have h2 : v = r.tgt := congrArg Prod.snd he
          exact hp ⟨h1.symm, h2.symm⟩
        congr 1
        simp only [pass2Step, hro, addEdge]
        exact lookupK_upsertF_ne _ _ _ _ hne

theorem pass2_edge_keys_nodup_aux (keys : List String) (occs : List ImportOcc) :
    ∀ st : Pass2, (st.graph.edges.map Prod.fst).Nodup →
      ((occs.foldl (pass2Step keys) st).graph.edges.map Prod.fst).Nodup := by
  induction occs with
  | nil => intro st h; simpa using h
  | cons o rest ih =>
    intro st h
    rw [List.foldl_cons]
    cases hro : resolved keys o with
    | none => exact ih _ (by simpa [pass2Step, hro] using h)
    | some r =>
      refine ih _ ?_
      simp only [pass2Step, hro, addEdge]
      exact nodup_keys_upsertF _ _ h

theorem pass2_edges_len_aux (keys : List String) (occs : List ImportOcc) :
    ∀ st : Pass2, (occs.foldl (pass2Step keys) st).graph.edges.length ≤
      st.graph.edges.length + (occs.filterMap (resolved keys)).length := by
  induction occs with
  | nil => intro st; simp
  | cons o rest ih =>
    intro st
    rw [List.foldl_cons]
    cases hro : resolved keys o with
    | none =>
      simp only [List.filterMap_cons, hro]
      simpa [pass2Step, hro] using ih _
    | some r =>
      have h1 := ih (pass2Step keys st o)
      have h2 : (pass2Step keys st o).graph.edges.length ≤ st.graph.edges.length + 1 := by
        simp only [pass2Step, hro, addEdge]
        exact length_upsertF_le _ _ _
      simp only [List.filterMap_cons, hro, List.length_cons]
      omega

theorem pass2_endpoints_aux (keys : List String) (occs : List ImportOcc) :
    ∀ st : Pass2, (∀ o ∈ occs, srcOf o ∈ keys) →
      (∀ e ∈ st.graph.edges, e.1.1 ∈ keys ∧ e.1.2 ∈ keys) →
      ∀ e ∈ (occs.foldl (pass2Step keys) st).graph.edges,
        e.1.1 ∈ keys ∧ e.1.2 ∈ keys := by
  induction occs with
  | nil => intro st _ hinv; simpa using hinv
  | cons o rest ih =>
    intro st hsrc hinv
    rw [List.foldl_cons]
    refine ih _ (fun o' ho' => hsrc o' (List.mem_cons_of_mem _ ho')) ?_
    cases hro : resolved keys o with
    | none => simpa [pass2Step, hro] using hinv
    | some r =>
      intro e he
      simp only [pass2Step, hro, addEdge] at he
      rcases mem_upsertF _ _ he with h | h
      · exact hinv e h
      · obtain ⟨hs, ht⟩ := resolved_spec hro
        have h1 : e.1.1 = r.src := by rw [h]
        have h2 : e.1.2 = r.tgt := by rw [h]
        rw [h1, h2, hs]
        exact ⟨hsrc o (List.mem_cons_self _ _), ht⟩

theorem pass2_ext_aux (keys : List String) (ts : List (Option String))
    (occs : List ImportOcc) :
    ∀ st : Pass2, (∀ o ∈ occs, targetOf o ∈ ts) →
      (∀ x ∈ st.ext, x ∈ ts ∧ ∀ m ∈ keys, x ≠ some m) → st.ext.Nodup →
      (∀ x ∈ (occs.foldl (pass2Step keys) st).ext,
        x ∈ ts ∧ ∀ m ∈ keys, x ≠ some m) ∧
      (occs.foldl (pass2Step keys) st).ext.Nodup := by
  induction occs with
  | nil => intro st _ hinv hnd; exact ⟨by simpa using hinv, by simpa using hnd⟩
  | cons o rest ih =>
    intro st htgt hinv hnd
    rw [List.foldl_cons]
    refine ih _ (fun o' ho' => htgt o' (List.mem_cons_of_mem _ ho')) ?_ ?_
    · cases hro : resolved keys o with
      | some r => simpa [pass2Step, hro] using hinv
      | none =>
        intro x hx
        simp only [pass2Step, hro] at hx
        rcases mem_addExt _ hx with h | h
        · exact hinv x h
        · subst h
          exact ⟨htgt o (List.mem_cons_self _ _), resolved_none_target hro⟩
    · cases hro : resolved keys o with
      | some r => simpa [pass2Step, hro] using hnd
      | none =>
        simp only [pass2Step, hro]
        exact nodup_addExt _ hnd

/-! Lemmas linking the occurrence list to the run. -/

theorem occ_src_mem {pr : List (String × FileParse)} {o : ImportOcc}
    (ho : o ∈ occurrences (pass1 pr).file_to_module pr) :
    srcOf o ∈ (pass1 pr).module_mapping.map Prod.fst := by
  rcases List.mem_flatMap.mp ho with ⟨entry, hentry, hof⟩
  rcases entry with ⟨fp, c⟩
  cases c with
  | failed err => simp [occurrencesOfFile] at hof
  | ok d =>
    have hl := pass1_ftm_lookup hentry
    have hstem := pass1_stem_mem_keys hentry
    simp only [occurrencesOfFile, hl, Option.getD_some] at hof
    rcases List.mem_append.mp hof with h | h
    · rcases List.mem_map.mp h with ⟨ii, _, rfl⟩
      simpa [srcOf] using hstem
    · rcases List.mem_map.mp h with ⟨fi, _, rfl⟩
      simpa [srcOf] using hstem

theorem occ_tgt_mem {ftm : List (String × String)} {pr : List (String × FileParse)}
    {o : ImportOcc} (ho : o ∈ occurrences ftm pr) :
    targetOf o ∈ allImportTargets pr := by
  rcases List.mem_flatMap.mp ho with ⟨entry, hentry, hof⟩
  rcases entry with ⟨fp, c⟩
  cases c with
  | failed err => simp [occurrencesOfFile] at hof
  | ok d =>
    refine List.mem_flatMap.mpr ⟨(fp, .ok d), hentry, ?_⟩
    simp only [occurrencesOfFile] at hof
    rcases List.mem_append.mp hof with h | h
    · rcases List.mem_map.mp h with ⟨ii, hii, rfl⟩
      exact List.mem_append_left _ (List.mem_map.mpr ⟨ii, hii, rfl⟩)
    · rcases List.mem_map.mp h with ⟨fi, hfi, rfl⟩
      exact List.mem_append_right _ (List.mem_map.mpr ⟨fi, hfi, rfl⟩)

/-! Lemmas about the breadth-first walk. -/

theorem stmtsSize_cons_pos (s : Stmt) (q : List Stmt) : 0 < stmtsSize (s :: q) := by
  cases s <;> simp only [stmtsSize] <;> omega

set_option linter.unreachableTactic false in
set_option linter.unusedTactic false in
theorem stmtsSize_append (l l' : List Stmt) :
    stmtsSize (l ++ l') = stmtsSize l + stmtsSize l' := by
  induction l with
  | nil => simp [stmtsSize]
  | cons s rest ih => cases s <;> simp only [List.cons_append, stmtsSize, ih] <;> omega

theorem stmtsSize_eq_zero {q : List Stmt} (h : stmtsSize q = 0) : q = [] := by
  cases q with
  | nil => rfl
  | cons s rest =>
    have := stmtsSize_cons_pos s rest
    omega

set_option linter.unreachableTactic false in
set_option linter.unusedTactic false in
theorem stmtsSize_cons_children (s : Stmt) (q : List Stmt) :
    stmtsSize (s :: q) = 1 + stmtsSize s.children + stmtsSize q := by
  cases s <;> simp only [stmtsSize, Stmt.children] <;> omega

theorem occurs_nil {s : Stmt} (h : Occurs s []) : False := by
  cases h with
  | here hm => simp at hm
  | nested ht _ => simp at ht

theorem occurs_append_left {s : Stmt} {l l' : List Stmt} (h : Occurs s l) :
    Occurs s (l ++ l') := by
  cases h with
  | here hm => exact .here (List.mem_append_left _ hm)
  | nested ht ho => exact .nested (List.mem_append_left _ ht) ho

theorem occurs_append_right {s : Stmt} {l l' : List Stmt} (h : Occurs s l') :
    Occurs s (l ++ l') := by
  cases h with
  | here hm => exact .here (List.mem_append_right _ hm)
  | nested ht ho => exact .nested (List.mem_append_right _ ht) ho

theorem walk_complete : ∀ (n : Nat) (q : List Stmt) (s : Stmt),
    stmtsSize q ≤ n → Occurs s q → s ∈ walkFuel n q := by
  intro n
  induction n with
  | zero =>
    intro q s hle ho
    have hq : q = [] := stmtsSize_eq_zero (Nat.le_zero.mp hle)
    subst hq
    exact (occurs_nil ho).elim
  | succ n ih =>
    intro q s hle ho
    cases q with
    | nil => exact (occurs_nil ho).elim
    | cons x rest =>
      have hsz : stmtsSize (rest ++ x.children) ≤ n := by
        have h1 := stmtsSize_cons_children x rest
        have h2 := stmtsSize_append rest x.children
        omega
      simp only [walkFuel]
      cases ho with
      | here hm =>
        rcases List.mem_cons.mp hm with h | h
        · exact h ▸ List.mem_cons_self _ _
        · exact List.mem_cons_of_mem _ (ih _ s hsz (occurs_append_left (.here h)))
      | nested ht hoc =>
        rcases List.mem_cons.mp ht with h | h
        · subst h
          exact List.mem_cons_of_mem _ (ih _ s hsz (occurs_append_right hoc))
        · exact List.mem_cons_of_mem _
            (ih _ s hsz (Occurs.nested (List.mem_append_left _ h) hoc))

theorem walkAll_complete {s : Stmt} {body : List Stmt} (h : Occurs s body) :
    s ∈ walkAll body :=
  walk_complete _ body s (Nat.le_refl _) h

theorem parse_mem_functions {f : PyFile} {n : String} {l : Nat} {e : Option Nat}
    {b : List Stmt} (h : Occurs (Stmt.functionDef n l e b) f.body) :
    (⟨n, l, e⟩ : DefEntry) ∈ (parse_python_file f).functions := by
  have hw := walkAll_complete h
  simp only [parse_python_file]
  exact List.mem_filterMap.mpr ⟨_, hw, rfl⟩

theorem parse_mem_classes {f : PyFile} {n : String} {l : Nat} {e : Option Nat}
    {b : List Stmt} (h : Occurs (Stmt.classDef n l e b) f.body) :
    (⟨n, l, e⟩ : DefEntry) ∈ (parse_python_file f).classes := by
  have hw := walkAll_complete h
  simp only [parse_python_file]
  exact List.mem_filterMap.mpr ⟨_, hw, rfl⟩

theorem parse_mem_standard_imports {f : PyFile} {names : List (String × Option String)}
    {l : Nat} {p : String × Option String} (h : Occurs (Stmt.importStmt names l) f.body)
    (hp : p ∈ names) :
    (⟨p.1, p.2, l⟩ : ImportEntry) ∈ (parse_python_file f).imports.standard_imports := by
  have hw := walkAll_complete h
  simp only [parse_python_file]
  exact List.mem_flatMap.mpr ⟨_, hw, List.mem_map.mpr ⟨p, hp, rfl⟩⟩

theorem parse_mem_from_imports {f : PyFile} {m : Option String}
    {names : List (String × Option String)} {l : Nat} {p : String × Option String}
    (h : Occurs (Stmt.importFrom m names l) f.body) (hp : p ∈ names) :
    (⟨m, p.1, p.2, l⟩ : FromImportEntry) ∈ (parse_python_file f).imports.from_imports := by
  have hw := walkAll_complete h
  simp only [parse_python_file]
  exact List.mem_flatMap.mpr ⟨_, hw, List.mem_map.mpr ⟨p, hp, rfl⟩⟩

/-! Assembly lemmas about the whole analysis run. -/

theorem analyze_nodes (pr : List (String × FileParse)) :
    (analyze_import_relationships pr).graph.nodes = (pass1 pr).graph.nodes := by
  simp only [analyze_import_relationships]
  exact pass2_nodes_aux _ _ _

theorem analyze_nodeIds (pr : List (String × FileParse)) :
    nodeIds (analyze_import_relationships pr).graph =
      (pass1 pr).module_mapping.map Prod.fst := by
  rw [nodeIds, analyze_nodes, pass1_keys_sync]

theorem analyze_lookup_edge (pr : List (String × FileParse)) (u v : String) :
    lookupK (analyze_import_relationships pr).graph.edges (u, v) =
      mergeWrites (writesForPair pr u v) none := by
  simp only [analyze_import_relationships]
  rw [pass2_lookup_aux]
  have h0 : lookupK (pass1 pr).graph.edges (u, v) = none := by
    rw [pass1_edges_nil]
    rfl
  rw [h0]
  rfl

theorem analyze_total_dependencies (pr : List (String × FileParse)) :
    (analyze_import_relationships pr).summary.total_dependencies =
      (resolvedImports pr).length := by
  simp only [analyze_import_relationships]
  rw [pass2_count_aux]
  simp [resolvedImports]

theorem analyze_edges_nodup (pr : List (String × FileParse)) :
    ((analyze_import_relationships pr).graph.edges.map Prod.fst).Nodup := by
  simp only [analyze_import_relationships]
  refine pass2_edge_keys_nodup_aux _ _ _ ?_
  rw [pass1_edges_nil]
  exact List.nodup_nil

theorem analyze_edges_len (pr : List (String × FileParse)) :
    (analyze_import_relationships pr).graph.edges.length ≤ (resolvedImports pr).length := by
  simp only [analyze_import_relationships]
  have h := pass2_edges_len_aux ((pass1 pr).module_mapping.map Prod.fst)
    (occurrences (pass1 pr).file_to_module pr) ⟨(pass1 pr).graph, [], 0⟩
  rw [pass1_edges_nil] at h
  simpa [resolvedImports] using h

theorem analyze_endpoints (pr : List (String × FileParse)) :
    ∀ e ∈ (analyze_import_relationships pr).graph.edges,
      e.1.1 ∈ nodeIds (analyze_import_relationships pr).graph ∧
        e.1.2 ∈ nodeIds (analyze_import_relationships pr).graph := by
  rw [analyze_nodeIds]
  simp only [analyze_import_relationships]
  refine pass2_endpoints_aux _ _ _ (fun o ho => occ_src_mem ho) ?_
  rw [pass1_edges_nil]
  intro e he
  simp at he

theorem analyze_ext_spec (pr : List (String × FileParse)) :
    (∀ x ∈ (analyze_import_relationships pr).external_dependencies,
      x ∈ allImportTargets pr ∧
        ∀ m ∈ (pass1 pr).module_mapping.map Prod.fst, x ≠ some m) ∧
    (analyze_import_relationships pr).external_dependencies.Nodup := by
  simp only [analyze_import_relationships]
  refine pass2_ext_aux _ (allImportTargets pr) _ _ (fun o ho => occ_tgt_mem ho) ?_ ?_
  · intro x hx
    simp at hx
  · exact List.nodup_nil

theorem mergeWrites_some_isSome : ∀ (ws : List EdgeWrite) (y : EdgeData),
    (mergeWrites ws (some y)).isSome = true := by
  intro ws
  induction ws with
  | nil => intro y; rfl
  | cons w rest ih => intro y; exact ih _

theorem mergeWrites_isSome {ws : List EdgeWrite} (x : Option EdgeData) (h : ws ≠ []) :
    (mergeWrites ws x).isSome = true := by
  cases ws with
  | nil => exact absurd rfl h
  | cons w rest => exact mergeWrites_some_isSome rest _

/-! The claims. -/

/-- C1, counterexample: A.py imports B on line 1 and again on line 2, yet
the built graph and the export keep a single A→B edge, carrying only the
second import's line number — the duplicate edge demanded by the claim is
not retained. -/
theorem C1_counterexample :
    c1dA.imports.standard_imports.length = 2 ∧
    (analyze_import_relationships c1pr).graph.edges =
      [(("A", "B"), ⟨"standard", 2, none, none⟩)] ∧
    (exportOf c1pr).edges = [⟨"A", "B", "standard", 2, "", none⟩] := by
  refine ⟨rfl, ?_, ?_⟩ <;> decide

/-- C1, amended: the graph is a DiGraph, so duplicate imports between the
same ordered pair are merged into a single stored edge (its attribute dict
updated in place); the graph and the export hold at most one edge per
ordered pair of modules. -/
theorem C1_amended (pr : List (String × FileParse)) :
    ((analyze_import_relationships pr).graph.edges.map Prod.fst).Nodup ∧
    (exportOf pr).edges.length = (analyze_import_relationships pr).graph.edges.length := by
  refine ⟨analyze_edges_nodup pr, ?_⟩
  simp [exportOf, export_json]

/-- C2, counterexample: a/utils.py (one function) and b/utils.py (two
functions) collide on the stem "utils"; the analysis binds the node to the
later file b/utils.py — not the first-encountered one — and its whole
result is identical to the run that saw only b/utils.py, so the collision
is not observable. -/
theorem C2_counterexample :
    lookupK (analyze_import_relationships c2pr).graph.nodes "utils" =
      some ⟨"b/utils.py", 2, 0, 7⟩ ∧
    analyze_import_relationships c2pr = analyze_import_relationships c2prLate := by
  refine ⟨?_, ?_⟩ <;> decide

/-- C2, amended: when several successfully parsed files share a stem, the
resolver deterministically lets the last file in traversal order win: the
module_mapping entry and the graph node for that stem are exactly those of
the last successful file with that stem, and the earlier files leave no
trace in the result. -/
theorem C2_amended (pr : List (String × FileParse)) (s : String) :
    lookupK (pass1 pr).module_mapping s = (lastWithStem s pr).map Prod.fst ∧
    lookupK (analyze_import_relationships pr).graph.nodes s =
      (lastWithStem s pr).map nodeDataOf := by
  constructor
  · have h := pass1_mapping_last_aux s pr ⟨[], [], ⟨[], []⟩, []⟩
    rw [pass1, h]
    cases lastWithStem s pr with
    | none => rfl
    | some e => rfl
  · rw [analyze_nodes]
    have h := pass1_nodes_last_aux s pr ⟨[], [], ⟨[], []⟩, []⟩
    rw [pass1, h]
    cases lastWithStem s pr with
    | none => rfl
    | some e => rfl

/-- C3: an unwalkable root (missing path, permission denied) is NOT a
top-level failure: os.walk with its default onerror=None swallows the
error, so parse_project returns exactly the same successful empty result
and success message as a walkable directory containing zero files — the
caller cannot distinguish the two, contradicting the claim. -/
theorem C3_enumeration_not_distinguished :
    parse_project RootDir.inaccessible = (⟨[], []⟩, parse_ok_msg) ∧
    parse_project (RootDir.accessible []) = (⟨[], []⟩, parse_ok_msg) :=
  ⟨rfl, rfl⟩

/-- C4: no dangling edges — for every run, every edge of the built graph
and of the exported JSON has both endpoints among the graph's nodes and
among the exported node ids. -/
theorem C4_no_dangling_edges (pr : List (String × FileParse)) :
    (∀ ee ∈ (exportOf pr).edges,
      ee.source ∈ (exportOf pr).nodes.map ExportNode.id ∧
        ee.target ∈ (exportOf pr).nodes.map ExportNode.id) ∧
    (∀ e ∈ (analyze_import_relationships pr).graph.edges,
      e.1.1 ∈ nodeIds (analyze_import_relationships pr).graph ∧
        e.1.2 ∈ nodeIds (analyze_import_relationships pr).graph) := by
  have hid : (exportOf pr).nodes.map ExportNode.id =
      nodeIds (analyze_import_relationships pr).graph := by
    simp [exportOf, export_json, nodeIds, List.map_map]
  refine ⟨?_, analyze_endpoints pr⟩
  intro ee hee
  rw [hid]
  simp only [exportOf, export_json, List.mem_map] at hee
  rcases hee with ⟨e, he, rfl⟩
  exact analyze_endpoints pr e he

/-- C4, witness: in the run where A.py imports B, the exported edge A→B has
both endpoints in the exported node list. -/
theorem C4_witness :
    c4edge.source ∈ (exportOf c4pr).nodes.map ExportNode.id ∧
      c4edge.target ∈ (exportOf c4pr).nodes.map ExportNode.id :=
  (C4_no_dangling_edges c4pr).1 c4edge (by decide)

/-- C5: a node of the built graph is in the orphaned-modules list iff
it has zero incoming and zero outgoing edges. -/
theorem C5_orphans_iff (pr : List (String × FileParse)) (n : String)
    (hn : n ∈ nodeIds (analyze_import_relationships pr).graph) :
    n ∈ (analyze_import_relationships pr).orphaned_modules ↔
      inDegree (analyze_import_relationships pr).graph n = 0 ∧
        outDegree (analyze_import_relationships pr).graph n = 0 := by
  have h : (analyze_import_relationships pr).orphaned_modules =
      identify_orphaned_modules (analyze_import_relationships pr).graph := rfl
  rw [h, mem_identify_orphaned_modules]
  exact and_iff_right hn

/-- C5, witness: the single module of a run with no imports is orphaned,
and indeed has both degrees zero. -/
theorem C5_witness :
    "Solo" ∈ (analyze_import_relationships c5pr).orphaned_modules ↔
      inDegree (analyze_import_relationships c5pr).graph "Solo" = 0 ∧
        outDegree (analyze_import_relationships c5pr).graph "Solo" = 0 :=
  C5_orphans_iff c5pr "Solo" (by decide)

/-- C6: no element of the external-dependency set equals a ModuleId present
as a node, and the external set holds no duplicates. -/
theorem C6_external_disjoint_dedup (pr : List (String × FileParse)) (m : String)
    (hm : m ∈ nodeIds (analyze_import_relationships pr).graph) :
    some m ∉ (analyze_import_relationships pr).external_dependencies ∧
      (analyze_import_relationships pr).external_dependencies.Nodup := by
  obtain ⟨h1, h2⟩ := analyze_ext_spec pr
  rw [analyze_nodeIds] at hm
  exact ⟨fun hmem => (h1 _ hmem).2 m hm rfl, h2⟩

/-- C6, witness: in the run where A.py imports the external module os, the
node id A is not in the external set, which is duplicate-free. -/
theorem C6_witness :
    some "A" ∉ (analyze_import_relationships c6pr).external_dependencies ∧
      (analyze_import_relationships c6pr).external_dependencies.Nodup :=
  C6_external_disjoint_dedup c6pr "A" (by decide)

/-- C7: a module whose file imports itself (an import whose target string
is the module's own stem, hence resolving internally) produces a self-loop
edge A→A in the graph, and the cycle list reports the length-1 cycle [A]. -/
theorem C7_self_import (pr : List (String × FileParse)) (fp : String) (d : ParseData)
    (A : String) (hmem : (fp, FileParse.ok d) ∈ pr) (hstem : stemOf fp = A)
    (himp : (∃ ie ∈ d.imports.standard_imports, ie.module = A) ∨
      (∃ fe ∈ d.imports.from_imports, fe.module = some A)) :
    (lookupK (analyze_import_relationships pr).graph.edges (A, A)).isSome = true ∧
      [A] ∈ (analyze_import_relationships pr).circular_dependencies := by
  have hkeys : A ∈ (pass1 pr).module_mapping.map Prod.fst :=
    hstem ▸ pass1_stem_mem_keys hmem
  have hftm : lookupK (pass1 pr).file_to_module fp = some (stemOf fp) :=
    pass1_ftm_lookup hmem
  have hww : ∃ w, w ∈ writesForPair pr A A := by
    rcases himp with ⟨ie, hie, hieA⟩ | ⟨fe, hfe, hfeA⟩
    · refine ⟨.std ie.line ie.asname, ?_⟩
      refine List.mem_map.mpr ⟨⟨A, A, .std ie.line ie.asname⟩, ?_, rfl⟩
      refine List.mem_filter.mpr ⟨?_, by simp⟩
      refine List.mem_filterMap.mpr
        ⟨.std A ie.module ie.line ie.asname, ?_, by simp [resolved, hieA, hkeys]⟩
      refine List.mem_flatMap.mpr ⟨(fp, .ok d), hmem, ?_⟩
      simp only [occurrencesOfFile, hftm, Option.getD_some, hstem]
      exact List.mem_append_left _ (List.mem_map.mpr ⟨ie, hie, rfl⟩)
    · refine ⟨.frm fe.line fe.nm fe.asname, ?_⟩
      refine List.mem_map.mpr ⟨⟨A, A, .frm fe.line fe.nm fe.asname⟩, ?_, rfl⟩
      refine List.mem_filter.mpr ⟨?_, by simp⟩
      refine List.mem_filterMap.mpr
        ⟨.frm A fe.module fe.line fe.nm fe.asname, ?_, by simp [resolved, hfeA, hkeys]⟩
      refine List.mem_flatMap.mpr ⟨(fp, .ok d), hmem, ?_⟩
      simp only [occurrencesOfFile, hftm, Option.getD_some, hstem]
      exact List.mem_append_right _ (List.mem_map.mpr ⟨fe, hfe, rfl⟩)
  obtain ⟨w, hw⟩ := hww
  have hne : writesForPair pr A A ≠ [] := List.ne_nil_of_mem hw
  have hsome : (lookupK (analyze_import_relationships pr).graph.edges (A, A)).isSome =
      true := by
    rw [analyze_lookup_edge]
    exact mergeWrites_isSome none hne
  refine ⟨hsome, ?_⟩
  have hcyc : (analyze_import_relationships pr).circular_dependencies =
      simple_cycles (analyze_import_relationships pr).graph := rfl
  rw [hcyc]
  refine selfloop_mem_simple_cycles ?_ ?_
  · rw [analyze_nodeIds]
    exact hkeys
  · unfold hasEdge
    exact hsome

/-- C7, witness: A.py contains "import A"; the graph gets the self-loop
A→A and the cycle list contains [A]. -/
theorem C7_witness :
    (lookupK (analyze_import_relationships c7pr).graph.edges ("A", "A")).isSome = true ∧
      ["A"] ∈ (analyze_import_relationships c7pr).circular_dependencies :=
  C7_self_import c7pr "A.py" c7d "A" (by decide) (by decide)
    (Or.inl ⟨⟨"A", none, 1⟩, by decide, rfl⟩)

/-- C8, counterexample: m.py contains the relative import
"from . import x", whose ImportFrom node has module=None; the run records
None itself in external_dependencies (exported as JSON null), so the
external-dependency list is not a list of module-name strings. -/
theorem C8_counterexample :
    (analyze_import_relationships c8pr).external_dependencies = [none] ∧
    (analyze_import_relationships c8pr).external_dependencies.all Option.isSome
      = false := by
  refine ⟨?_, ?_⟩ <;> decide

/-- C8, amended: every recorded external dependency is the raw module field
of some import occurrence of the run — the module-name string of a plain or
of a from-import with a module path, but None for a relative
from-import without one — and no string element equals a ModuleId present
as a node. -/
theorem C8_amended (pr : List (String × FileParse)) (x : Option String)
    (hx : x ∈ (analyze_import_relationships pr).external_dependencies) :
    x ∈ allImportTargets pr ∧
      ∀ s : String, x = some s →
        s ∉ nodeIds (analyze_import_relationships pr).graph := by
  obtain ⟨h1, _⟩ := analyze_ext_spec pr
  obtain ⟨ht, hd⟩ := h1 x hx
  refine ⟨ht, fun s hs hmem => ?_⟩
  rw [analyze_nodeIds] at hmem
  exact hd s hmem hs

/-- C8, witness: the None entry recorded for "from . import x" is indeed
among the run's raw import targets and is not a node id. -/
theorem C8_amended_witness :
    (none ∈ allImportTargets c8pr ∧
      ∀ s : String, (none : Option String) = some s →
        s ∉ nodeIds (analyze_import_relationships c8pr).graph) :=
  C8_amended c8pr none (by decide)

/-- C9, counterexample: a file whose only statement is an async function
definition ("async def fetch") contains a function definition by the
spec's words, ast.walk visits it, yet the functions list of its parse
record is empty — isinstance(n, ast.FunctionDef) does not match
ast.AsyncFunctionDef. -/
theorem C9_counterexample :
    specIsFunctionDef c9async = true ∧ c9async ∈ walkAll c9file.body ∧
      (parse_python_file c9file).functions = [] := by
  refine ⟨rfl, ?_, ?_⟩ <;>
    simp [walkAll, walkFuel, stmtsSize, parse_python_file, Stmt.children, c9file,
      c9async]

/-- C9, amended: for every successfully parsed file, the extractor records
every plain (def) function definition and every class definition — at any
nesting depth, into the same flat lists, with their line numbers — every
plain and from-import statement with its line number, and the file's total
line count; async function definitions are the one omission. -/
theorem C9_extraction (f : PyFile) :
    (∀ (n : String) (l : Nat) (e : Option Nat) (b : List Stmt),
      Occurs (Stmt.functionDef n l e b) f.body →
        (⟨n, l, e⟩ : DefEntry) ∈ (parse_python_file f).functions) ∧
    (∀ (n : String) (l : Nat) (e : Option Nat) (b : List Stmt),
      Occurs (Stmt.classDef n l e b) f.body →
        (⟨n, l, e⟩ : DefEntry) ∈ (parse_python_file f).classes) ∧
    (∀ (names : List (String × Option String)) (l : Nat) (p : String × Option String),
      Occurs (Stmt.importStmt names l) f.body → p ∈ names →
        (⟨p.1, p.2, l⟩ : ImportEntry) ∈ (parse_python_file f).imports.standard_imports) ∧
    (∀ (m : Option String) (names : List (String × Option String)) (l : Nat)
      (p : String × Option String),
      Occurs (Stmt.importFrom m names l) f.body → p ∈ names →
        (⟨m, p.1, p.2, l⟩ : FromImportEntry) ∈
          (parse_python_file f).imports.from_imports) ∧
    (parse_python_file f).source_lines = f.sourceLines :=
  ⟨fun _ _ _ _ h => parse_mem_functions h,
   fun _ _ _ _ h => parse_mem_classes h,
   fun _ _ _ h hp => parse_mem_standard_imports h hp,
   fun _ _ _ _ h hp => parse_mem_from_imports h hp,
   rfl⟩

/-- C9, witness: the method g nested inside class C is recorded in the flat
functions list with its line number. -/
theorem C9_witness :
    (⟨"g", 2, some 3⟩ : DefEntry) ∈ (parse_python_file c9wfile).functions :=
  (C9_extraction c9wfile).1 "g" 2 (some 3) []
    (Occurs.nested (List.mem_cons_self _ _) (Occurs.here (List.mem_cons_self _ _)))

/-- C10, counterexample: p/A.py has "from B import x" (line 1) and q/A.py —
same stem, so same edge source — has "import B" (line 7, processed last).
The single stored A→B edge carries import_type and line_number of the
last, plain import, but imported_name "x" of the earlier from-import, which
a plain import does not clear; total_dependencies is 2 against 1 edge. -/
theorem C10_counterexample :
    (analyze_import_relationships c10pr).graph.edges =
      [(("A", "B"), ⟨"standard", 7, some "x", none⟩)] ∧
    (exportOf c10pr).edges = [⟨"A", "B", "standard", 7, "x", none⟩] ∧
    (analyze_import_relationships c10pr).summary.total_dependencies = 2 ∧
    (analyze_import_relationships c10pr).graph.edges.length = 1 := by
  refine ⟨?_, ?_, ?_, ?_⟩ <;> decide

/-- C10, amended: the graph stores at most one edge per ordered pair; its
attribute dict is the in-place merge of all resolved imports of that pair
in processing order (a plain import leaves an earlier from-import's own
recorded imported_name in place), while total_dependencies counts every
resolved occurrence of an import, so it can strictly exceed the edge count. -/
theorem C10_merged_edge_attributes (pr : List (String × FileParse)) (u v : String) :
    ((analyze_import_relationships pr).graph.edges.map Prod.fst).Nodup ∧
    lookupK (analyze_import_relationships pr).graph.edges (u, v) =
      mergeWrites (writesForPair pr u v) none ∧
    (analyze_import_relationships pr).summary.total_dependencies =
      (resolvedImports pr).length ∧
    (analyze_import_relationships pr).graph.edges.length ≤ (resolvedImports pr).length :=
  ⟨analyze_edges_nodup pr, analyze_lookup_edge pr u v,
   analyze_total_dependencies pr, analyze_edges_len pr⟩

end CodeArchViz
